import Mathlib

/-!
Verification development for the `augmentorLib` operation library
(`src/Operation.h`): a shallow embedding of the probabilistic image
operations (gate, flip, invert, crop, rotate, random erase) and of the
blur engine (sliding-window box blur, direct Gaussian convolution),
together with theorems settling the specification claims.

Modelling conventions:
* the external `Image` collaborator is a structure holding width, height,
  channel count and a total pixel function `x -> y -> channel -> Nat`;
  channel values of real images are 8-bit, captured by `Image.wf`;
* machine integers are modelled as `Nat`/`Int` with explicit reduction
  `% 2^64` exactly where the C++ computes with `uint64_t`/`size_t`
  wraparound (the box-blur accumulator, the crop offset arithmetic);
* each random generator is an explicit draw sequence plus a cursor index;
  drawing reads the sequence at the cursor and advances it by one.
-/

namespace AugmentorLib

/-- The external image collaborator (`Image` template parameter):
width, height, channel count (`getPixelSize`), and the pixel grid as a
total function.  `getPixel x y` is `fun c => pix x y c`. -/
structure Image where
  width : Nat
  height : Nat
  pixelWidth : Nat
  pix : Nat → Nat → Nat → Nat

/-- Real images carry `uint8_t` channels: every stored value is below 256. -/
def Image.wf (img : Image) : Prop := ∀ x y c, img.pix x y c < 256

/-- `setPixel x y v`: overwrite the channel vector at one coordinate. -/
def Image.setPixel (img : Image) (x y : Nat) (v : Nat → Nat) : Image :=
  { img with pix := fun a b c => if a = x ∧ b = y then v c else img.pix a b c }

/-- Channel count used by the two-argument `Image(width, height)`
constructor.  The image class is external; its default channel count is
not visible in the sources, so it is fixed here as 3 (RGB). -/
def defaultPixelWidth : Nat := 3

/-- A freshly constructed image: all channel values at their default 0. -/
def blankImage (w h pw : Nat) : Image :=
  { width := w, height := h, pixelWidth := pw, pix := fun _ _ _ => 0 }

/-- An image whose every pixel holds the same value `c` in every channel. -/
def constImg (w h pw c : Nat) : Image :=
  { width := w, height := h, pixelWidth := pw, pix := fun _ _ _ => c }

/-- `struct image_size { size_t height; size_t width; }`. -/
structure ImageSize where
  height : Nat
  width : Nat

/-- State of `Operation<Image>`: the fixed probability together with its
`UniformDistributionGenerator<double>`, modelled as the sequence of unit
draws the engine will produce and a cursor.  The distribution draws lie
in `[0,1)`; theorems assume that range where they need it. -/
structure OpState where
  probability : ℚ
  draws : Nat → ℚ
  idx : Nat

/-- Advancing the generator by one draw. -/
def OpState.next (s : OpState) : OpState :=
  { s with idx := s.idx + 1 }

/-- `Operation::operate_this_time()`: one draw from the generator,
compared with the probability; the draw is consumed either way. -/
def operateThisTime (s : OpState) : Bool × OpState :=
  (decide (s.draws s.idx ≤ s.probability), s.next)

/-- `Operation::uniform_random_number()`: a raw unit draw. -/
def uniformRandomNumber (s : OpState) : ℚ × OpState :=
  (s.draws s.idx, s.next)

/-- `Operation::uniform_random_number(lower, upper)`:
`(upper - lower) * generator() + lower`. -/
def uniformRandomNumberIn (s : OpState) (lower upper : ℚ) : ℚ × OpState :=
  ((upper - lower) * s.draws s.idx + lower, s.next)

/-! ## Box blur: sliding-window accumulator (`accumulator`, `BoxBlurOperation::perform`) -/

/-- The modulus of the `uint64_t` accumulator entries (`accumulator::_datatype`). -/
def U64 : Nat := 2 ^ 64

/-- Clamp-to-edge index arithmetic
`std::min((size_t) std::max(z, 0l), len - 1)`. -/
def clampIdx (len : Nat) (z : Int) : Nat :=
  min z.toNat (len - 1)

/-- Initial window sum of the sliding pass: starting from `y0 = -(k/2)`,
add the clamped tap `k` times (`acc.add` on `uint64_t` entries, hence the
reduction `% U64` at every addition). -/
def accInit (k len : Nat) (f : Nat → Nat) : Nat :=
  (List.range k).foldl
    (fun (a : Nat) (t : Nat) => (a + f (clampIdx len ((t : Int) - (k / 2 : Nat)))) % U64) 0

/-- Accumulator value when the window sits at output position `j`:
position 0 is the initial sum; each later position shifts the window by
`acc.shift(del, add)`, i.e. `values += add; values -= del` in `uint64_t`
arithmetic.  The departing tap is `std::max(y_del++, 0l)` (no upper
clamp), the arriving tap is `std::min(y_add++, len - 1)`. -/
def accAt (k len : Nat) (f : Nat → Nat) : Nat → Nat
  | 0 => accInit k len f
  | j + 1 =>
      (accAt k len f j + f (min (j + 1 + k / 2) (len - 1)) +
        (U64 - f (((j : Int) - (k / 2 : Nat)).toNat) % U64)) % U64

/-- Output value of the sliding pass at position `j`:
`acc.div(filter.length)` truncates (`uint64_t` division) and narrows to
`uint8_t`. -/
def lineOut (k len : Nat) (f : Nat → Nat) (j : Nat) : Nat :=
  accAt k len f j / k % 256

/-- First (vertical) sliding pass of `BoxBlurOperation::perform`: one
accumulator per column, writing the transient buffer. -/
def slidingTransient (k : Nat) (img : Image) : Image :=
  { width := img.width, height := img.height, pixelWidth := img.pixelWidth,
    pix := fun x y c =>
      if x < img.width ∧ y < img.height then
        lineOut k img.height (fun y2 => img.pix x y2 c) y
      else 0 }

/-- `BoxBlurOperation::perform` body (gate already fired): vertical
sliding pass into the transient, then horizontal sliding pass from the
transient back into the caller image. -/
def boxBlurImage (k : Nat) (img : Image) : Image :=
  let t := slidingTransient k img
  { width := img.width, height := img.height, pixelWidth := img.pixelWidth,
    pix := fun x y c =>
      if x < img.width ∧ y < img.height then
        lineOut k img.width (fun x2 => t.pix x2 y c) x
      else 0 }

/-- `BoxBlurOperation::perform` with its probability gate. -/
def boxBlurPerform (k : Nat) (s : OpState) (img : Image) : Image × OpState :=
  let r := operateThisTime s
  if r.1 then (boxBlurImage k img, r.2) else (img, r.2)

/-! ## The direct (naive) box convolution the sliding pass is compared to -/

/-- Modelled from the spec: the window sum of a direct convolution with an
all-ones kernel of length `k` centred with offset `-(k/2)`, under the same
clamp-to-edge boundary policy (exact arithmetic, no accumulator). -/
def naiveWindowSum (k len : Nat) (f : Nat → Nat) (j : Nat) : Nat :=
  ((List.range k).map
    (fun (t : Nat) => f (clampIdx len ((j : Int) + (t : Int) - (k / 2 : Nat))))).sum

/-- Modelled from the spec: one axis of the direct box convolution,
integer-truncating division by `k`. -/
def naiveLine (k len : Nat) (f : Nat → Nat) (j : Nat) : Nat :=
  naiveWindowSum k len f j / k

/-- Modelled from the spec: vertical pass of the direct separable box
convolution. -/
def naiveTransient (k : Nat) (img : Image) : Image :=
  { width := img.width, height := img.height, pixelWidth := img.pixelWidth,
    pix := fun x y c =>
      if x < img.width ∧ y < img.height then
        naiveLine k img.height (fun y2 => img.pix x y2 c) y
      else 0 }

/-- Modelled from the spec: the full direct separable box convolution
(vertical pass, then horizontal pass), the reference algorithm the
sliding-window box blur is claimed to be numerically identical to. -/
def naiveBoxBlur (k : Nat) (img : Image) : Image :=
  let t := naiveTransient k img
  { width := img.width, height := img.height, pixelWidth := img.pixelWidth,
    pix := fun x y c =>
      if x < img.width ∧ y < img.height then
        naiveLine k img.width (fun x2 => t.pix x2 y c) x
      else 0 }

/-! ## Gaussian blur (`GaussianBlurOperation::perform`) -/

/-- Modelled from the spec: `gaussian_blur_filter_1D` lives in the
missing `filters.h`; per the spec it is an ordered sequence of weights
whose sum is normalized to (approximately) 1.  It is represented here as
an abstract weight list, `filter[k]` being `wAt ws k`. -/
def wAt (ws : List ℚ) (t : Nat) : ℚ := ws.getD t 0

/-- `convert2pixel` on one channel: a `double` accumulation result stored
into a `uint8_t`, which truncates toward zero (the in-range case of the
C++ conversion). -/
def q2byte (q : ℚ) : Nat := (⌊q⌋).toNat

/-- One channel of the weighted sum
`for k: val[p] += pixel[p] * filter[k]` with clamp-to-edge taps along a
line of length `len` (real-valued accumulation idealized as exact
rationals). -/
def convSum (ws : List ℚ) (len : Nat) (g : Nat → Nat) (j : Nat) : ℚ :=
  ((List.range ws.length).map
    (fun (t : Nat) =>
      (g (clampIdx len ((j : Int) + (t : Int) - (ws.length / 2 : Nat))) : ℚ) * wAt ws t)).sum

/-- First loop of `GaussianBlurOperation::perform`: convolve the source
along the width axis into the transient buffer (writes are disjoint and
read only the source, so the final buffer is this pointwise image). -/
def gaussPass1 (ws : List ℚ) (img : Image) : Image :=
  { width := img.width, height := img.height, pixelWidth := img.pixelWidth,
    pix := fun x y c =>
      if x < img.width ∧ y < img.height then
        q2byte (convSum ws img.width (fun x2 => img.pix x2 y c) x)
      else 0 }

/-- One iteration of the second loop of `GaussianBlurOperation::perform`:
convolve along the height axis at `(i, j)` reading the *current* state of
`image` (the source reads `image->getPixel(i, y)`, not the transient, so
earlier writes of the same pass are visible) and store the pixel. -/
def gaussPass2Step (ws : List ℚ) (i j : Nat) (im : Image) : Image :=
  im.setPixel i j (fun c => q2byte (convSum ws im.height (fun y2 => im.pix i y2 c) j))

/-- Second loop of `GaussianBlurOperation::perform`: columns outer, rows
inner, sequentially updating `image` in place. -/
def gaussPass2 (ws : List ℚ) (img : Image) : Image :=
  (List.range img.width).foldl
    (fun im i => (List.range img.height).foldl (fun im2 j => gaussPass2Step ws i j im2) im)
    img

/-- `GaussianBlurOperation::perform` with its gate.  The transient buffer
written by the first loop (`gaussPass1`) is never read back by the second
loop, which reads and writes `image` itself; the result is therefore
`gaussPass2` applied to the gated source image. -/
def gaussPerform (ws : List ℚ) (s : OpState) (img : Image) : Image × OpState :=
  let r := operateThisTime s
  if r.1 then (gaussPass2 ws img, r.2) else (img, r.2)

/-! ## StdoutOperation, FlipOperation, InvertOperation -/

/-- `StdoutOperation::perform`: on a failed gate it returns `nullptr`
(modelled as `none`); otherwise it returns the image it was given. -/
def stdoutPerform (s : OpState) (img : Image) : Option Image × OpState :=
  let r := operateThisTime s
  if r.1 then (some img, r.2) else (none, r.2)

/-- The one exception `FlipOperation::perform` can throw
(`std::out_of_range` with a message naming the two valid type strings). -/
inductive OpError where
  | unknownFlipType : OpError
deriving DecidableEq

/-- Horizontal flip: the loop swaps columns `x` and `width-1-x` for
`x < width/2`; the swapped pairs are disjoint, so the final grid is the
column mirror on the full domain. -/
def hFlipImage (img : Image) : Image :=
  { img with pix := fun x y c =>
      if x < img.width ∧ y < img.height then img.pix (img.width - 1 - x) y c
      else img.pix x y c }

/-- Vertical flip: the symmetric row mirror. -/
def vFlipImage (img : Image) : Image :=
  { img with pix := fun x y c =>
      if x < img.width ∧ y < img.height then img.pix x (img.height - 1 - y) c
      else img.pix x y c }

/-- `FlipOperation::perform`: gate, then dispatch on the type string;
any string other than `"Horizontal"` and `"Vertical"` throws. -/
def flipPerform (ty : String) (s : OpState) (img : Image) :
    Except OpError Image × OpState :=
  let r := operateThisTime s
  if r.1 then
    (if ty = "Horizontal" then Except.ok (hFlipImage img)
     else if ty = "Vertical" then Except.ok (vFlipImage img)
     else Except.error OpError.unknownFlipType, r.2)
  else (Except.ok img, r.2)

/-- `InvertOperation::perform`: gate, then replace every channel value
`v` of every pixel by `255 - v`. -/
def invertPerform (s : OpState) (img : Image) : Image × OpState :=
  let r := operateThisTime s
  if r.1 then
    ({ img with pix := fun x y c =>
        if x < img.width ∧ y < img.height then 255 - img.pix x y c
        else img.pix x y c }, r.2)
  else (img, r.2)

/-! ## CropOperation -/

/-- Offset and loop-count arithmetic of the centered crop.  In the source
`left_offset = x - size.width/2` mixes `int` with `size_t`, so it is
computed in `size_t` (wraparound mod `2^64`); the loop
`for (i = left_offset; i < left_offset + size.width; ...)` compares
against `left_offset + size.width`, itself reduced mod `2^64`, so the
iteration count is the truncated difference.  Returns
`(left_offset, down_offset, x iterations, y iterations)`. -/
def cropCenterParams (size : ImageSize) (img : Image) : Nat × Nat × Nat × Nat :=
  let x := img.width / 2
  let y := img.height / 2
  let lo := (((x : Int) - (size.width / 2 : Nat)).emod (2 ^ 64)).toNat
  let td := (((y : Int) - (size.height / 2 : Nat)).emod (2 ^ 64)).toNat
  (lo, td, (lo + size.width) % 2 ^ 64 - lo, (td + size.height) % 2 ^ 64 - td)

/-- The centered-crop copy loop: a fresh `Image temp(size.width,
size.height)` receives `temp.setPixel(i1, j1, image->getPixel(lo+i1,
td+j1))`.  The source performs these reads with no bounds check (the
checks are commented out), so coordinates may lie outside the image; the
model reads the total pixel function, where the C++ reads out of bounds
(undefined behaviour). -/
def cropCenterBody (size : ImageSize) (img : Image) : Image :=
  let p := cropCenterParams size img
  { width := size.width, height := size.height, pixelWidth := defaultPixelWidth,
    pix := fun a b c =>
      if a < p.2.2.1 ∧ b < p.2.2.2 then img.pix (p.1 + a) (p.2.1 + b) c else 0 }

/-- Whether the centered-crop loop performs a read outside the source
image bounds. -/
def cropCenterHasOOBRead (size : ImageSize) (img : Image) : Bool :=
  let p := cropCenterParams size img
  ((List.range p.2.2.1).any fun i1 => decide (img.width ≤ p.1 + i1)) ||
  ((List.range p.2.2.2).any fun j1 => decide (img.height ≤ p.2.1 + j1))

/-- `CropOperation::perform`: gate, build `temp`, copy only in the
`center` case (the non-centered branch is an unimplemented TODO and
copies nothing), then assign `*image = temp`. -/
def cropPerform (size : ImageSize) (center : Bool) (s : OpState) (img : Image) :
    Image × OpState :=
  let r := operateThisTime s
  if r.1 then
    (if center then cropCenterBody size img
     else blankImage size.width size.height defaultPixelWidth, r.2)
  else (img, r.2)

/-! ## RotateOperation -/

/-- `#define PI 3.14159` from the source. -/
def piRat : ℚ := 3.14159

/-- `struct rotate_range { int min_rotate; int max_rotate; }`. -/
structure RotateRange where
  min_rotate : Int
  max_rotate : Int

/-- Body of `RotateOperation::perform` for a drawn degree `deg`: inverse
map every destination pixel through the rotation about the image center,
round the source coordinate, and copy it when it lies in bounds, leaving
the destination at the default 0 otherwise.  The trigonometric functions
are passed in abstractly (`cosF`, `sinF`); the C++ `round` rounds halves
away from zero whereas `round` here rounds halves up - the two agree off
half-integers and in particular on every value arising at angle 0. -/
def rotateBody (cosF sinF : ℚ → ℚ) (deg : ℚ) (img : Image) : Image :=
  let w := img.width
  let h := img.height
  let hw : Int := (w : Int) / 2
  let hh : Int := (h : Int) / 2
  let angle : ℚ := deg * piRat / 180
  { width := w, height := h, pixelWidth := defaultPixelWidth,
    pix := fun x y c =>
      if x < w ∧ y < h then
        let xt : Int := (x : Int) - hw
        let yt : Int := (y : Int) - hh
        let xs : Int := round (cosF angle * (xt : ℚ) - sinF angle * (yt : ℚ) + (hw : ℚ))
        let ys : Int := round (sinF angle * (xt : ℚ) + cosF angle * (yt : ℚ) + (hh : ℚ))
        if 0 ≤ xs ∧ xs < (w : Int) ∧ 0 ≤ ys ∧ ys < (h : Int) then
          img.pix xs.toNat ys.toNat c
        else 0
      else 0 }

/-- `RotateOperation::perform`: gate, draw the degree uniformly in the
configured range, rotate. -/
def rotatePerform (range : RotateRange) (cosF sinF : ℚ → ℚ) (s : OpState)
    (img : Image) : Image × OpState :=
  let r := operateThisTime s
  if r.1 then
    let d := uniformRandomNumberIn r.2 (range.min_rotate : ℚ) (range.max_rotate : ℚ)
    (rotateBody cosF sinF d.1 img, d.2)
  else (img, r.2)

/-! ## RandomEraseOperation -/

/-- State of a `RandomEraseOperation`: the base operation generator plus
the dedicated `size_t` offset generator and the per-channel noise
generator, each a draw sequence with a cursor. -/
structure EraseOp where
  base : OpState
  xy : Nat → Nat
  xyIdx : Nat
  noise : Nat → Nat
  noiseIdx : Nat

/-- Erase rectangle dimensions: clamp both mask bounds to the image
dimensions, then interpolate height and width from the single shared unit
draw `f`, truncating the `double` product back to `size_t`.  Returns
`(erase height, erase width)`. -/
def eraseSizes (lower upper : ImageSize) (img : Image) (f : ℚ) : Nat × Nat :=
  let lh := min img.height lower.height
  let lw := min img.width lower.width
  let uh := min img.height upper.height
  let uw := min img.width upper.width
  ((⌊((uh - lh : Nat) : ℚ) * f⌋).toNat + lh, (⌊((uw - lw : Nat) : ℚ) * f⌋).toNat + lw)

/-- Erase rectangle offsets: one `xy_generator` draw each, reduced modulo
the number of valid positions.  Returns `(top, left)`. -/
def eraseOffsets (img : Image) (eh ew : Nat) (xy : Nat → Nat) (xyIdx : Nat) :
    Nat × Nat :=
  (xy xyIdx % (img.height - eh + 1), xy (xyIdx + 1) % (img.width - ew + 1))

/-- Inner (row) loop of the erase fill at column `left + di`: each pixel
gets `pw` fresh noise draws for its channel vector and is stored; the
state threads the image being mutated and the noise cursor. -/
def eraseInner (left top pw : Nat) (noise : Nat → Nat) (di eh : Nat)
    (st : Image × Nat) : Image × Nat :=
  (List.range eh).foldl
    (fun st2 dj =>
      (st2.1.setPixel (left + di) (top + dj) (fun c => noise (st2.2 + c)), st2.2 + pw))
    st

/-- The erase fill loop: columns outer, rows inner. -/
def eraseLoop (img : Image) (left top ew eh pw : Nat) (noise : Nat → Nat)
    (n0 : Nat) : Image × Nat :=
  (List.range ew).foldl (fun st di => eraseInner left top pw noise di eh st) (img, n0)

/-- `RandomEraseOperation::perform`: gate, clamp and interpolate the
rectangle, draw its offsets, fill it with noise. -/
def erasePerform (lower upper : ImageSize) (op : EraseOp) (img : Image) :
    Image × EraseOp :=
  let r := operateThisTime op.base
  if r.1 then
    let fr := uniformRandomNumber r.2
    let sz := eraseSizes lower upper img fr.1
    let off := eraseOffsets img sz.1 sz.2 op.xy op.xyIdx
    let res := eraseLoop img off.2 off.1 sz.2 sz.1 img.pixelWidth op.noise op.noiseIdx
    (res.1,
     { base := fr.2, xy := op.xy, xyIdx := op.xyIdx + 2, noise := op.noise,
       noiseIdx := res.2 })
  else (img, { op with base := r.2 })

/-! ## Helper lemmas: sliding-window accumulator vs direct window sums -/

lemma U64_pos : 0 < U64 := by norm_num [U64]

lemma foldl_add_mod (g : Nat → Nat) :
    ∀ (l : List Nat) (a : Nat), a < U64 →
      l.foldl (fun acc t => (acc + g t) % U64) a = (a + (l.map g).sum) % U64 := by
  intro l
  induction l with
  | nil => intro a ha; simpa using (Nat.mod_eq_of_lt ha).symm
  | cons t l ih =>
      intro a ha
      have h1 := ih ((a + g t) % U64) (Nat.mod_lt _ U64_pos)
      simp only [List.foldl_cons, List.map_cons, List.sum_cons] at h1 ⊢
      rw [h1, Nat.mod_add_mod, Nat.add_assoc]

lemma list_range_map_sum (g : Nat → Nat) (k : Nat) :
    ((List.range k).map g).sum = ∑ t in Finset.range k, g t := by
  induction k with
  | zero => simp
  | succ n ih =>
      rw [List.range_succ, List.map_append, List.sum_append, Finset.sum_range_succ, ih]
      simp

lemma naiveWindowSum_le (k len : Nat) (f : Nat → Nat) (j : Nat)
    (hf : ∀ n, f n < 256) : naiveWindowSum k len f j ≤ 255 * k := by
  unfold naiveWindowSum
  rw [list_range_map_sum]
  calc ∑ t in Finset.range k, f (clampIdx len ((j : Int) + (t : Int) - (k / 2 : Nat)))
      ≤ ∑ _t in Finset.range k, 255 :=
        Finset.sum_le_sum (fun t _ => Nat.le_of_lt_succ (hf _))
    _ = 255 * k := by simp [mul_comm]

lemma naiveWindowSum_succ (k len : Nat) (f : Nat → Nat) (j : Nat)
    (hk : k % 2 = 1) (hj : j + 1 < len) :
    naiveWindowSum k len f (j + 1) + f (((j : Int) - (k / 2 : Nat)).toNat) =
      naiveWindowSum k len f j + f (min (j + 1 + k / 2) (len - 1)) := by
  unfold naiveWindowSum
  rw [list_range_map_sum, list_range_map_sum]
  have e1 : ∀ t ∈ Finset.range k,
      f (clampIdx len (((j + 1 : Nat) : Int) + (t : Int) - (k / 2 : Nat))) =
        f (clampIdx len ((j : Int) + ((t + 1 : Nat) : Int) - (k / 2 : Nat))) := by
    intro t _
    congr 2
    push_cast
    ring
  rw [Finset.sum_congr rfl e1]
  have big1 : ∑ t in Finset.range (k + 1),
        f (clampIdx len ((j : Int) + (t : Int) - (k / 2 : Nat))) =
      (∑ t in Finset.range k,
        f (clampIdx len ((j : Int) + ((t + 1 : Nat) : Int) - (k / 2 : Nat)))) +
        f (clampIdx len ((j : Int) + ((0 : Nat) : Int) - (k / 2 : Nat))) :=
    Finset.sum_range_succ' _ k
  have big2 : ∑ t in Finset.range (k + 1),
        f (clampIdx len ((j : Int) + (t : Int) - (k / 2 : Nat))) =
      (∑ t in Finset.range k,
        f (clampIdx len ((j : Int) + (t : Int) - (k / 2 : Nat)))) +
        f (clampIdx len ((j : Int) + ((k : Nat) : Int) - (k / 2 : Nat))) :=
    Finset.sum_range_succ _ k
  have c0 : clampIdx len ((j : Int) + ((0 : Nat) : Int) - (k / 2 : Nat)) =
      ((j : Int) - (k / 2 : Nat)).toNat := by
    unfold clampIdx
    omega
  have ck : clampIdx len ((j : Int) + ((k : Nat) : Int) - (k / 2 : Nat)) =
      min (j + 1 + k / 2) (len - 1) := by
    unfold clampIdx
    omega
  rw [c0] at big1
  rw [ck] at big2
  omega

lemma naiveWindowSum_lt_U64 (k len : Nat) (f : Nat → Nat) (j : Nat)
    (hf : ∀ n, f n < 256) (hk0 : 0 < k) (hbound : 256 * k ≤ U64) :
    naiveWindowSum k len f j < U64 := by
  have h := naiveWindowSum_le k len f j hf
  omega

lemma accInit_eq_naive (k len : Nat) (f : Nat → Nat)
    (hf : ∀ n, f n < 256) (hk0 : 0 < k) (hbound : 256 * k ≤ U64) :
    accInit k len f = naiveWindowSum k len f 0 := by
  unfold accInit
  rw [foldl_add_mod _ _ 0 U64_pos]
  have hcongr : (List.range k).map
        (fun (t : Nat) => f (clampIdx len ((t : Int) - (k / 2 : Nat)))) =
      (List.range k).map
        (fun (t : Nat) => f (clampIdx len (((0 : Nat) : Int) + (t : Int) - (k / 2 : Nat)))) := by
    refine List.map_congr_left ?_
    intro t _
    congr 2
    push_cast
    ring
  rw [hcongr]
  have hlt := naiveWindowSum_lt_U64 k len f 0 hf hk0 hbound
  unfold naiveWindowSum at hlt ⊢
  simp only [Nat.zero_add]
  exact Nat.mod_eq_of_lt hlt

/-- The heart of the equivalence claim: for an odd kernel length the
sliding-window accumulator holds exactly the direct clamped window sum at
every output position of the line. -/
lemma accAt_eq_naive (k len : Nat) (f : Nat → Nat)
    (hk : k % 2 = 1) (hf : ∀ n, f n < 256) (hbound : 256 * k ≤ U64) :
    ∀ j, j < len → accAt k len f j = naiveWindowSum k len f j := by
  have hk0 : 0 < k := by omega
  intro j
  induction j with
  | zero => intro _; exact accInit_eq_naive k len f hf hk0 hbound
  | succ j ih =>
      intro hj
      have hIH := ih (by omega)
      have hstep := naiveWindowSum_succ k len f j hk hj
      have hd : f (((j : Int) - (k / 2 : Nat)).toNat) % U64 =
          f (((j : Int) - (k / 2 : Nat)).toNat) := by
        have := hf (((j : Int) - (k / 2 : Nat)).toNat)
        have : f (((j : Int) - (k / 2 : Nat)).toNat) < U64 := by
          have h256 : (256 : Nat) ≤ U64 := by norm_num [U64]
          omega
        exact Nat.mod_eq_of_lt this
      have hN1 := naiveWindowSum_lt_U64 k len f (j + 1) hf hk0 hbound
      have hdle : f (((j : Int) - (k / 2 : Nat)).toNat) ≤ U64 := by
        have := hf (((j : Int) - (k / 2 : Nat)).toNat)
        have h256 : (256 : Nat) ≤ U64 := by norm_num [U64]
        omega
      show (accAt k len f j + f (min (j + 1 + k / 2) (len - 1)) +
          (U64 - f (((j : Int) - (k / 2 : Nat)).toNat) % U64)) % U64 =
        naiveWindowSum k len f (j + 1)
      rw [hIH, hd]
      have harith : naiveWindowSum k len f j + f (min (j + 1 + k / 2) (len - 1)) +
          (U64 - f (((j : Int) - (k / 2 : Nat)).toNat)) =
          naiveWindowSum k len f (j + 1) + U64 := by omega
      rw [harith, Nat.add_mod_right]
      exact Nat.mod_eq_of_lt hN1

lemma lineOut_eq_naiveLine (k len : Nat) (f : Nat → Nat)
    (hk : k % 2 = 1) (hf : ∀ n, f n < 256) (hbound : 256 * k ≤ U64) :
    ∀ j, j < len → lineOut k len f j = naiveLine k len f j := by
  intro j hj
  have hk0 : 0 < k := by omega
  unfold lineOut naiveLine
  rw [accAt_eq_naive k len f hk hf hbound j hj]
  have hle := naiveWindowSum_le k len f j hf
  have hdiv : naiveWindowSum k len f j / k < 256 := by
    rw [Nat.div_lt_iff_lt_mul hk0]
    have : 255 * k < 256 * k := by omega
    omega
  exact Nat.mod_eq_of_lt hdiv

lemma naiveLine_lt (k len : Nat) (f : Nat → Nat)
    (hf : ∀ n, f n < 256) (hk0 : 0 < k) (j : Nat) :
    naiveLine k len f j < 256 := by
  unfold naiveLine
  have hle := naiveWindowSum_le k len f j hf
  rw [Nat.div_lt_iff_lt_mul hk0]
  have : 255 * k < 256 * k := by omega
  omega

lemma naiveTransient_wf (k : Nat) (img : Image) (hwf : img.wf) (hk0 : 0 < k) :
    (naiveTransient k img).wf := by
  intro x y c
  unfold naiveTransient
  dsimp only
  split
  · exact naiveLine_lt k img.height _ (fun n => hwf x n c) hk0 y
  · omega

lemma slidingTransient_eq_naive (k : Nat) (img : Image)
    (hk : k % 2 = 1) (hwf : img.wf) (hbound : 256 * k ≤ U64) :
    slidingTransient k img = naiveTransient k img := by
  unfold slidingTransient naiveTransient
  congr 1
  funext x y c
  by_cases h : x < img.width ∧ y < img.height
  · simp only [h, and_true, if_pos]
    exact lineOut_eq_naiveLine k img.height _ hk (fun n => hwf x n c) hbound y h.2
  · simp only [h, if_neg, not_false_iff]

/-- Pixelwise equality of the sliding-window box blur with the direct
separable box convolution, for odd kernel lengths. -/
lemma boxBlurImage_eq_naive (k : Nat) (img : Image)
    (hk : k % 2 = 1) (hwf : img.wf) (hbound : 256 * k ≤ U64) :
    ∀ x y c, x < img.width → y < img.height →
      (boxBlurImage k img).pix x y c = (naiveBoxBlur k img).pix x y c := by
  intro x y c hx hy
  have hk0 : 0 < k := by omega
  have ht := slidingTransient_eq_naive k img hk hwf hbound
  unfold boxBlurImage naiveBoxBlur
  simp only [ht, hx, hy, and_self, if_pos]
  exact lineOut_eq_naiveLine k img.width _ hk
    (fun n => naiveTransient_wf k img hwf hk0 n y c) hbound x hx

/-! ## Helper lemmas: constant images through the blurs -/

lemma clampIdx_lt (len : Nat) (z : Int) (hlen : 0 < len) : clampIdx len z < len := by
  unfold clampIdx
  omega

lemma sum_map_const_range (c k : Nat) :
    ((List.range k).map (fun (_ : Nat) => c)).sum = k * c := by
  induction k with
  | zero => simp
  | succ n ih =>
      rw [List.range_succ, List.map_append, List.sum_append, ih]
      simp [Nat.succ_mul]

lemma accInit_constOn (k len c : Nat) (f : Nat → Nat) (hlen : 0 < len)
    (hf : ∀ n, n < len → f n = c) : accInit k len f = k * c % U64 := by
  unfold accInit
  rw [foldl_add_mod _ _ 0 U64_pos]
  have hcongr : (List.range k).map
        (fun (t : Nat) => f (clampIdx len ((t : Int) - (k / 2 : Nat)))) =
      (List.range k).map (fun (_ : Nat) => c) := by
    refine List.map_congr_left ?_
    intro t _
    exact hf _ (clampIdx_lt len _ hlen)
  rw [hcongr, sum_map_const_range, Nat.zero_add]

lemma accAt_constOn (k len c : Nat) (f : Nat → Nat) (hlen : 0 < len) (hk0 : 0 < k)
    (hf : ∀ n, n < len → f n = c) (hkc : k * c < U64) :
    ∀ j, j < len → accAt k len f j = k * c := by
  have hc : c ≤ k * c := Nat.le_mul_of_pos_left c hk0
  intro j
  induction j with
  | zero =>
      intro _
      rw [show accAt k len f 0 = accInit k len f from rfl,
        accInit_constOn k len c f hlen hf]
      exact Nat.mod_eq_of_lt hkc
  | succ j ih =>
      intro hj
      have hIH := ih (by omega)
      have hnxt : f (min (j + 1 + k / 2) (len - 1)) = c := hf _ (by omega)
      have hprv : f (((j : Int) - (k / 2 : Nat)).toNat) = c := hf _ (by omega)
      show (accAt k len f j + f (min (j + 1 + k / 2) (len - 1)) +
          (U64 - f (((j : Int) - (k / 2 : Nat)).toNat) % U64)) % U64 = k * c
      rw [hIH, hnxt, hprv, Nat.mod_eq_of_lt (by omega : c < U64)]
      have harith : k * c + c + (U64 - c) = k * c + U64 := by omega
      rw [harith, Nat.add_mod_right]
      exact Nat.mod_eq_of_lt hkc

lemma lineOut_constOn (k len c : Nat) (f : Nat → Nat) (hlen : 0 < len) (hk0 : 0 < k)
    (hc : c < 256) (hf : ∀ n, n < len → f n = c) (hkc : k * c < U64) :
    ∀ j, j < len → lineOut k len f j = c := by
  intro j hj
  unfold lineOut
  rw [accAt_constOn k len c f hlen hk0 hf hkc j hj, Nat.mul_div_cancel_left c hk0]
  exact Nat.mod_eq_of_lt hc

/-- Flat-field invariance of the sliding box blur: on a constant image
every in-bounds output pixel keeps the constant, provided the `uint64_t`
window sum `k * c` does not overflow. -/
lemma boxBlurImage_const (k w h pw c : Nat) (hw : 0 < w) (hh : 0 < h) (hk0 : 0 < k)
    (hc : c < 256) (hkc : k * c < U64) :
    ∀ x y ch, x < w → y < h →
      (boxBlurImage k (constImg w h pw c)).pix x y ch = c := by
  intro x y ch hx hy
  have htrans : ∀ x2 y2 c2, x2 < w → y2 < h →
      (slidingTransient k (constImg w h pw c)).pix x2 y2 c2 = c := by
    intro x2 y2 c2 hx2 hy2
    unfold slidingTransient constImg
    simp only [hx2, hy2, and_self, if_pos]
    exact lineOut_constOn k h c _ hh hk0 hc (fun _ _ => rfl) hkc y2 hy2
  unfold boxBlurImage
  simp only [constImg, hx, hy, and_self, if_pos]
  refine lineOut_constOn k w c _ hw hk0 hc ?_ hkc x hx
  intro n hn
  exact htrans n y ch hn hy

/-! ## Helper lemmas: Gaussian blur on a constant image -/

lemma sum_getD_range (ws : List ℚ) :
    ((List.range ws.length).map (fun t => wAt ws t)).sum = ws.sum := by
  induction ws with
  | nil => simp
  | cons a tl ih =>
      rw [List.length_cons, List.range_succ_eq_map, List.map_cons, List.sum_cons,
        List.map_map]
      have : (fun t => wAt (a :: tl) t) ∘ Nat.succ = fun t => wAt tl t := by
        funext t
        simp [wAt]
      rw [this, ih]
      simp [wAt]

lemma convSum_const (ws : List ℚ) (len : Nat) (g : Nat → Nat) (j : Nat) (c : Nat)
    (hg : ∀ n, g n = c) : convSum ws len g j = (c : ℚ) * ws.sum := by
  unfold convSum
  have hcongr : (List.range ws.length).map
        (fun (t : Nat) =>
          (g (clampIdx len ((j : Int) + (t : Int) - (ws.length / 2 : Nat))) : ℚ) * wAt ws t) =
      (List.range ws.length).map (fun (t : Nat) => (c : ℚ) * wAt ws t) := by
    refine List.map_congr_left ?_
    intro t _
    rw [hg]
  rw [hcongr]
  rw [List.sum_map_mul_left, sum_getD_range]

lemma q2byte_natCast (c : Nat) : q2byte (c : ℚ) = c := by
  unfold q2byte
  rw [Int.floor_natCast]
  exact Int.toNat_natCast c

lemma foldl_preserve {α β : Type} (P : α → Prop) (f : α → β → α) :
    ∀ (l : List β) (a : α), (∀ x b, P x → P (f x b)) → P a → P (l.foldl f a) := by
  intro l
  induction l with
  | nil => intro a _ ha; exact ha
  | cons b l ih => intro a hstep ha; exact ih _ hstep (hstep a b ha)

/-- The sequential second pass of the Gaussian blur keeps a constant
image constant when the kernel weights sum to 1, and preserves the
dimensions. -/
lemma gaussPass2_const (ws : List ℚ) (img : Image) (c : Nat)
    (hsum : ws.sum = 1) (hconst : ∀ x y ch, img.pix x y ch = c) :
    (gaussPass2 ws img).width = img.width ∧ (gaussPass2 ws img).height = img.height ∧
      ∀ x y ch, (gaussPass2 ws img).pix x y ch = c := by
  set P : Image → Prop := fun im =>
    im.width = img.width ∧ im.height = img.height ∧ ∀ x y ch, im.pix x y ch = c with hP
  have hstep : ∀ (im : Image) (i j : Nat), P im → P (gaussPass2Step ws i j im) := by
    intro im i j hPim
    rcases hPim with ⟨hwid, hhei, hpix⟩
    refine ⟨hwid, hhei, ?_⟩
    intro x y ch
    unfold gaussPass2Step Image.setPixel
    dsimp only
    split
    · rw [convSum_const ws im.height (fun y2 => im.pix i y2 ch) j c (fun n => hpix i n ch),
        hsum, mul_one, q2byte_natCast]
    · exact hpix x y ch
  have hmain : P (gaussPass2 ws img) := by
    unfold gaussPass2
    refine foldl_preserve P _ _ img ?_ ⟨rfl, rfl, hconst⟩
    intro im i hPim
    refine foldl_preserve P _ _ im ?_ hPim
    intro im2 j hPim2
    exact hstep im2 i j hPim2
  exact hmain

/-! ## Helper lemmas: the erase fill loop -/

lemma eraseInner_succ (left top pw : Nat) (noise : Nat → Nat) (di eh : Nat)
    (st : Image × Nat) :
    eraseInner left top pw noise di (eh + 1) st =
      ((eraseInner left top pw noise di eh st).1.setPixel (left + di) (top + eh)
          (fun c => noise ((eraseInner left top pw noise di eh st).2 + c)),
        (eraseInner left top pw noise di eh st).2 + pw) := by
  unfold eraseInner
  rw [List.range_succ, List.foldl_append]
  rfl

lemma eraseInner_spec (left top pw : Nat) (noise : Nat → Nat) (di : Nat) :
    ∀ (eh : Nat) (im : Image) (n0 : Nat),
      (eraseInner left top pw noise di eh (im, n0)).2 = n0 + eh * pw ∧
      (eraseInner left top pw noise di eh (im, n0)).1.width = im.width ∧
      (eraseInner left top pw noise di eh (im, n0)).1.height = im.height ∧
      ∀ x y c, (eraseInner left top pw noise di eh (im, n0)).1.pix x y c =
        if x = left + di ∧ top ≤ y ∧ y < top + eh then noise (n0 + (y - top) * pw + c)
        else im.pix x y c := by
  intro eh
  induction eh with
  | zero =>
      intro im n0
      refine ⟨by simp [eraseInner], rfl, rfl, ?_⟩
      intro x y c
      rw [if_neg (by omega)]
      rfl
  | succ eh ih =>
      intro im n0
      obtain ⟨ihn, ihw, ihh, ihpix⟩ := ih im n0
      rw [eraseInner_succ]
      refine ⟨by rw [ihn]; ring, ihw, ihh, ?_⟩
      intro x y c
      show (if x = left + di ∧ y = top + eh
          then noise ((eraseInner left top pw noise di eh (im, n0)).2 + c)
          else (eraseInner left top pw noise di eh (im, n0)).1.pix x y c) = _
      by_cases h1 : x = left + di ∧ y = top + eh
      · obtain ⟨hx1, hy1⟩ := h1
        subst hy1
        rw [if_pos ⟨hx1, rfl⟩, if_pos ⟨hx1, by omega, by omega⟩, ihn]
        have hcanc : top + eh - top = eh := by omega
        rw [hcanc]
      · rw [if_neg h1, ihpix x y c]
        by_cases h2 : x = left + di ∧ top ≤ y ∧ y < top + eh
        · rw [if_pos h2, if_pos ⟨h2.1, h2.2.1, by omega⟩]
        · rw [if_neg h2, if_neg ?_]
          intro hcon
          obtain ⟨ha, hb, hc⟩ := hcon
          have hsplit : y < top + eh ∨ y = top + eh := by omega
          rcases hsplit with hlt | heq
          · exact h2 ⟨ha, hb, hlt⟩
          · exact h1 ⟨ha, heq⟩

lemma eraseLoop_succ (img : Image) (left top ew eh pw : Nat) (noise : Nat → Nat)
    (n0 : Nat) :
    eraseLoop img left top (ew + 1) eh pw noise n0 =
      eraseInner left top pw noise ew eh (eraseLoop img left top ew eh pw noise n0) := by
  unfold eraseLoop
  rw [List.range_succ, List.foldl_append]
  rfl

lemma eraseLoop_spec (left top pw : Nat) (noise : Nat → Nat) (eh : Nat) :
    ∀ (ew : Nat) (img : Image) (n0 : Nat),
      (eraseLoop img left top ew eh pw noise n0).2 = n0 + ew * (eh * pw) ∧
      (eraseLoop img left top ew eh pw noise n0).1.width = img.width ∧
      (eraseLoop img left top ew eh pw noise n0).1.height = img.height ∧
      ∀ x y c, (eraseLoop img left top ew eh pw noise n0).1.pix x y c =
        if (left ≤ x ∧ x < left + ew) ∧ top ≤ y ∧ y < top + eh then
          noise (n0 + ((x - left) * eh + (y - top)) * pw + c)
        else img.pix x y c := by
  intro ew
  induction ew with
  | zero =>
      intro img n0
      refine ⟨by simp [eraseLoop], rfl, rfl, ?_⟩
      intro x y c
      rw [if_neg (by omega)]
      rfl
  | succ ew ih =>
      intro img n0
      obtain ⟨ihn, ihw, ihh, ihpix⟩ := ih img n0
      have hinner := eraseInner_spec left top pw noise ew eh
        (eraseLoop img left top ew eh pw noise n0).1
        (eraseLoop img left top ew eh pw noise n0).2
      rw [Prod.mk.eta] at hinner
      obtain ⟨hn, hw, hh, hpix⟩ := hinner
      rw [eraseLoop_succ]
      refine ⟨by rw [hn, ihn]; ring, by rw [hw, ihw], by rw [hh, ihh], ?_⟩
      intro x y c
      rw [hpix x y c, ihn]
      by_cases h1 : x = left + ew ∧ top ≤ y ∧ y < top + eh
      · obtain ⟨hx1, hy1, hy2⟩ := h1
        subst hx1
        rw [if_pos ⟨rfl, hy1, hy2⟩, if_pos ⟨⟨by omega, by omega⟩, hy1, hy2⟩]
        have hcanc : left + ew - left = ew := by omega
        rw [hcanc]
        congr 1
        ring
      · rw [if_neg h1, ihpix x y c]
        by_cases h2 : (left ≤ x ∧ x < left + ew) ∧ top ≤ y ∧ y < top + eh
        · rw [if_pos h2, if_pos ⟨⟨h2.1.1, by omega⟩, h2.2⟩]
        · rw [if_neg h2, if_neg ?_]
          intro hcon
          obtain ⟨⟨ha, hb⟩, hcd⟩ := hcon
          have hsplit : x < left + ew ∨ x = left + ew := by omega
          rcases hsplit with hlt | heq
          · exact h2 ⟨⟨ha, hlt⟩, hcd⟩
          · exact h1 ⟨heq, hcd⟩

lemma eraseSizes_le (lower upper : ImageSize) (img : Image) (f : ℚ)
    (hlh : lower.height ≤ upper.height) (hlw : lower.width ≤ upper.width)
    (hf1 : f < 1) :
    (eraseSizes lower upper img f).1 ≤ img.height ∧
      (eraseSizes lower upper img f).2 ≤ img.width := by
  unfold eraseSizes
  dsimp only
  constructor
  · have hmono : min img.height lower.height ≤ min img.height upper.height := by omega
    have hfl : (⌊((min img.height upper.height - min img.height lower.height : Nat) : ℚ) * f⌋).toNat ≤
        min img.height upper.height - min img.height lower.height := by
      have hle : ((min img.height upper.height - min img.height lower.height : Nat) : ℚ) * f ≤
          ((min img.height upper.height - min img.height lower.height : Nat) : ℚ) := by
        calc ((min img.height upper.height - min img.height lower.height : Nat) : ℚ) * f
            ≤ ((min img.height upper.height - min img.height lower.height : Nat) : ℚ) * 1 :=
              mul_le_mul_of_nonneg_left (le_of_lt hf1) (by positivity)
          _ = _ := mul_one _
      have := Int.floor_mono hle
      rw [Int.floor_natCast] at this
      omega
    omega
  · have hmono : min img.width lower.width ≤ min img.width upper.width := by omega
    have hfl : (⌊((min img.width upper.width - min img.width lower.width : Nat) : ℚ) * f⌋).toNat ≤
        min img.width upper.width - min img.width lower.width := by
      have hle : ((min img.width upper.width - min img.width lower.width : Nat) : ℚ) * f ≤
          ((min img.width upper.width - min img.width lower.width : Nat) : ℚ) := by
        calc ((min img.width upper.width - min img.width lower.width : Nat) : ℚ) * f
            ≤ ((min img.width upper.width - min img.width lower.width : Nat) : ℚ) * 1 :=
              mul_le_mul_of_nonneg_left (le_of_lt hf1) (by positivity)
          _ = _ := mul_one _
      have := Int.floor_mono hle
      rw [Int.floor_natCast] at this
      omega
    omega

lemma eraseOffsets_le (img : Image) (eh ew : Nat)
    (heh : eh ≤ img.height) (hew : ew ≤ img.width) (xy : Nat → Nat) (xyIdx : Nat) :
    (eraseOffsets img eh ew xy xyIdx).1 + eh ≤ img.height ∧
      (eraseOffsets img eh ew xy xyIdx).2 + ew ≤ img.width := by
  unfold eraseOffsets
  dsimp only
  constructor
  · have := Nat.mod_lt (xy xyIdx) (show 0 < img.height - eh + 1 by omega)
    omega
  · have := Nat.mod_lt (xy (xyIdx + 1)) (show 0 < img.width - ew + 1 by omega)
    omega

/-! ## Claim theorems -/

/-- Claim C2 (code bug witness): on a failed gate, `StdoutOperation::perform`
returns `nullptr` (`none`) instead of the original image, contradicting the
uniform skip contract; evaluated here at probability 0 with a draw of 1. -/
theorem c2_stdout_skip_returns_null :
    (stdoutPerform ⟨0, fun _ => 1, 0⟩ (constImg 1 1 1 0)).1 = none := rfl

/-- Claim C3 (counterexample): with probability 0 and a generator whose unit
draw is exactly 0, the gate fires (`0 <= 0`), so "p = 0.0 never fires" is
false as stated. -/
theorem c3_counterexample :
    (operateThisTime ⟨0, fun _ => 0, 0⟩).1 = true := rfl

/-- Claim C3 (amended): every gate check consumes exactly one draw, advancing
the generator state regardless of outcome, and fires iff the unit draw is at
most the probability; `p = 1` always fires, while `p = 0` fires exactly when
the draw is 0 (hence never on a nonzero draw). -/
theorem c3_gate_draw_characterization (s : OpState)
    (h0 : 0 ≤ s.draws s.idx) (h1 : s.draws s.idx < 1) :
    (operateThisTime s).2 = OpState.next s ∧
    ((operateThisTime s).1 = true ↔ s.draws s.idx ≤ s.probability) ∧
    (s.probability = 1 → (operateThisTime s).1 = true) ∧
    (s.probability = 0 → ((operateThisTime s).1 = true ↔ s.draws s.idx = 0)) := by
  refine ⟨rfl, by simp [operateThisTime], ?_, ?_⟩
  · intro hp
    simp only [operateThisTime, decide_eq_true_eq, hp]
    exact le_of_lt h1
  · intro hp
    simp only [operateThisTime, decide_eq_true_eq, hp]
    exact ⟨fun h => le_antisymm h h0, fun h => le_of_eq h⟩

/-- Witness for the amended C3 theorem at a concrete state. -/
theorem c3_witness : (operateThisTime ⟨1, fun _ => 1/2, 5⟩).1 = true :=
  (c3_gate_draw_characterization ⟨1, fun _ => 1/2, 5⟩ (by norm_num) (by norm_num)).2.2.1 rfl

/-- Claim C4 (code bug witness): the centered crop of a 2x2 image to a
1x3 rectangle reads the column `x = 2`, outside the source bounds, and
`CropOperation::perform` raises no error (the bounds checks are commented
out): it completes and returns a 3x1 image. -/
theorem c4_crop_oob_read_without_error :
    cropCenterHasOOBRead ⟨1, 3⟩ (constImg 2 2 1 5) = true ∧
    ((cropPerform ⟨1, 3⟩ true ⟨1, fun _ => 0, 0⟩ (constImg 2 2 1 5)).1).width = 3 ∧
    ((cropPerform ⟨1, 3⟩ true ⟨1, fun _ => 0, 0⟩ (constImg 2 2 1 5)).1).pix 0 0 0 = 5 := by
  refine ⟨by decide, rfl, rfl⟩

/-- Claim C8: Invert is involutive on 8-bit channels: applying Invert twice
with the gate firing both times restores every pixel of every well-formed
image, since `255 - (255 - v) = v` for `v < 256`. -/
theorem c8_invert_involutive (s1 s2 : OpState) (img : Image) (hwf : img.wf)
    (hfire1 : (operateThisTime s1).1 = true) (hfire2 : (operateThisTime s2).1 = true) :
    ∀ x y c, ((invertPerform s2 (invertPerform s1 img).1).1).pix x y c = img.pix x y c := by
  intro x y c
  simp only [invertPerform, hfire1, hfire2, eq_self_iff_true, if_true]
  by_cases h : x < img.width ∧ y < img.height
  · simp only [h, and_self, if_pos]
    have := hwf x y c
    omega
  · simp only [h, if_neg, not_false_iff]

/-- Well-formedness of constant images with an 8-bit constant. -/
lemma constImg_wf (w h pw c : Nat) (hc : c < 256) : (constImg w h pw c).wf :=
  fun _ _ _ => hc

/-- Witness for the C8 theorem on a concrete image. -/
theorem c8_witness :
    ((invertPerform ⟨1, fun _ => 0, 0⟩
        (invertPerform ⟨1, fun _ => 0, 0⟩ (constImg 2 2 1 99)).1).1).pix 0 1 0 =
      (constImg 2 2 1 99).pix 0 1 0 :=
  c8_invert_involutive ⟨1, fun _ => 0, 0⟩ ⟨1, fun _ => 0, 0⟩ (constImg 2 2 1 99)
    (constImg_wf 2 2 1 99 (by norm_num)) rfl rfl 0 1 0

/-- Claim C9: with the gate firing, a Flip whose type string is neither
"Horizontal" nor "Vertical" fails immediately with the invalid-argument
error (the thrown `std::out_of_range`), not with a transformed image. -/
theorem c9_flip_invalid_type_error (ty : String) (s : OpState) (img : Image)
    (hfire : (operateThisTime s).1 = true)
    (hH : ty ≠ "Horizontal") (hV : ty ≠ "Vertical") :
    (flipPerform ty s img).1 = Except.error OpError.unknownFlipType := by
  simp only [flipPerform, hfire, eq_self_iff_true, if_true, hH, hV, if_neg, not_false_iff]

/-- Witness for the C9 theorem at a concrete invalid type string. -/
theorem c9_witness :
    (flipPerform "Diagonal" ⟨1, fun _ => 0, 0⟩ (constImg 1 1 1 0)).1 =
      Except.error OpError.unknownFlipType :=
  c9_flip_invalid_type_error "Diagonal" ⟨1, fun _ => 0, 0⟩ (constImg 1 1 1 0) rfl
    (by decide) (by decide)

/-- Claim C10: when the gate fires with the center flag false, Crop copies no
source pixels but still assigns the freshly constructed temporary, so the
result is the default-initialized blank image of the target crop
dimensions. -/
theorem c10_crop_noncentered_blank (size : ImageSize) (s : OpState) (img : Image)
    (hfire : (operateThisTime s).1 = true) :
    (cropPerform size false s img).1 =
      blankImage size.width size.height defaultPixelWidth := by
  simp [cropPerform, hfire]

/-- Witness for the C10 theorem on a concrete image. -/
theorem c10_witness :
    (cropPerform ⟨2, 3⟩ false ⟨1, fun _ => 0, 0⟩ (constImg 4 4 1 8)).1 =
      blankImage 3 2 defaultPixelWidth :=
  c10_crop_noncentered_blank ⟨2, 3⟩ ⟨1, fun _ => 0, 0⟩ (constImg 4 4 1 8) rfl

/-- Claim C1 (counterexample): for the even kernel length 2 on a 1x3
single-channel image with column values (0, 0, 2), the sliding-window box
blur and the direct box convolution differ at pixel (0, 1): the shift
step adds the tap `min(j + k/2, len-1)` where the direct window's new tap
is `clamp(j + (k - k/2) - 1)`, and for even `k` these disagree. -/
theorem c1_counterexample :
    ((boxBlurPerform 2 ⟨1, fun _ => 0, 0⟩
        ⟨1, 3, 1, fun _ y _ => if y = 2 then 2 else 0⟩).1).pix 0 1 0 ≠
      (naiveBoxBlur 2 ⟨1, 3, 1, fun _ y _ => if y = 2 then 2 else 0⟩).pix 0 1 0 := by
  decide

/-- Claim C1 (amended): for every odd kernel length `k` whose window sum
cannot overflow the `uint64_t` accumulator (`256 * k ≤ 2^64`), the
sliding-window box blur of `BoxBlurOperation::perform` with the gate
firing is numerically identical, pixel for pixel and channel for channel,
to the direct separable all-ones convolution with the same
integer-truncating division and clamp-to-edge boundary policy. -/
theorem c1_boxBlur_matches_naive_odd (k : Nat) (s : OpState) (img : Image)
    (hk : k % 2 = 1) (hwf : img.wf) (hbound : 256 * k ≤ U64)
    (hfire : (operateThisTime s).1 = true) :
    ∀ x y c, x < img.width → y < img.height →
      ((boxBlurPerform k s img).1).pix x y c = (naiveBoxBlur k img).pix x y c := by
  intro x y c hx hy
  simp only [boxBlurPerform, hfire, eq_self_iff_true, if_true]
  exact boxBlurImage_eq_naive k img hk hwf hbound x y c hx hy

/-- Witness for the amended C1 theorem: kernel length 3 on a 2x2 image. -/
theorem c1_witness :
    ((boxBlurPerform 3 ⟨1, fun _ => 0, 0⟩ (constImg 2 2 1 7)).1).pix 0 0 0 =
      (naiveBoxBlur 3 (constImg 2 2 1 7)).pix 0 0 0 :=
  c1_boxBlur_matches_naive_odd 3 ⟨1, fun _ => 0, 0⟩ (constImg 2 2 1 7)
    (by decide) (constImg_wf 2 2 1 7 (by norm_num)) (by decide) rfl
    0 0 0 (by decide) (by decide)

/-- Closed form of the box blur output on a 1x1 constant image: both
passes sum `k` clamped copies of the single pixel in the `uint64_t`
accumulator, divide by `k` and narrow to a byte. -/
lemma boxBlurImage_1x1_const (k c : Nat) :
    (boxBlurImage k (constImg 1 1 1 c)).pix 0 0 0 =
      k * (k * c % U64 / k % 256) % U64 / k % 256 := by
  have htr : ∀ n, n < 1 →
      (slidingTransient k (constImg 1 1 1 c)).pix n 0 0 = k * c % U64 / k % 256 := by
    intro n hn
    have hn0 : n = 0 := by omega
    subst hn0
    show (if (0 : Nat) < 1 ∧ (0 : Nat) < 1 then
        lineOut k 1 (fun y2 => (constImg 1 1 1 c).pix 0 y2 0) 0 else 0) = _
    rw [if_pos ⟨Nat.one_pos, Nat.one_pos⟩]
    show accAt k 1 (fun y2 => (constImg 1 1 1 c).pix 0 y2 0) 0 / k % 256 = _
    rw [show accAt k 1 (fun y2 => (constImg 1 1 1 c).pix 0 y2 0) 0 =
        accInit k 1 (fun y2 => (constImg 1 1 1 c).pix 0 y2 0) from rfl]
    rw [accInit_constOn k 1 c (fun y2 => (constImg 1 1 1 c).pix 0 y2 0) Nat.one_pos
      (fun _ _ => rfl)]
  show (if (0 : Nat) < 1 ∧ (0 : Nat) < 1 then
      lineOut k 1 (fun x2 => (slidingTransient k (constImg 1 1 1 c)).pix x2 0 0) 0
    else 0) = _
  rw [if_pos ⟨Nat.one_pos, Nat.one_pos⟩]
  show accAt k 1 (fun x2 => (slidingTransient k (constImg 1 1 1 c)).pix x2 0 0) 0 / k % 256 = _
  rw [show accAt k 1 (fun x2 => (slidingTransient k (constImg 1 1 1 c)).pix x2 0 0) 0 =
      accInit k 1 (fun x2 => (slidingTransient k (constImg 1 1 1 c)).pix x2 0 0) from rfl]
  rw [accInit_constOn k 1 (k * c % U64 / k % 256) _ Nat.one_pos htr]

/-- Claim C5 (counterexample): flat-field invariance fails for kernel
lengths whose window sum overflows the `uint64_t` accumulator: box
blurring the constant-255 1x1 image with kernel length `2^60` yields 15,
not 255, because the initial window sum `2^60 * 255` wraps modulo
`2^64`. -/
theorem c5_counterexample :
    ((boxBlurPerform (2 ^ 60) ⟨1, fun _ => 0, 0⟩ (constImg 1 1 1 255)).1).pix 0 0 0 ≠ 255 := by
  have hfire : (operateThisTime (⟨1, fun _ => 0, 0⟩ : OpState)).1 = true := rfl
  simp only [boxBlurPerform, hfire, eq_self_iff_true, if_true]
  rw [boxBlurImage_1x1_const (2 ^ 60) 255]
  decide

/-- Claim C5 (amended): on a constant-valued image, the sliding box blur
with the gate firing returns the same constant at every in-bounds pixel
for every kernel length whose window sum `k * c` stays below `2^64` (no
accumulator overflow), and the Gaussian blur (kernel weights summing to
1) returns the same constant image with the dimensions preserved. -/
theorem c5_flat_field (W H pw c k : Nat) (ws : List ℚ) (s1 s2 : OpState)
    (hw : 0 < W) (hh : 0 < H) (hc : c < 256) (hk0 : 0 < k) (hkc : k * c < U64)
    (hsum : ws.sum = 1)
    (hfire1 : (operateThisTime s1).1 = true) (hfire2 : (operateThisTime s2).1 = true) :
    (∀ x y ch, x < W → y < H →
        ((boxBlurPerform k s1 (constImg W H pw c)).1).pix x y ch = c) ∧
    (gaussPerform ws s2 (constImg W H pw c)).1.width = W ∧
    (gaussPerform ws s2 (constImg W H pw c)).1.height = H ∧
    ∀ x y ch, ((gaussPerform ws s2 (constImg W H pw c)).1).pix x y ch = c := by
  have hbox := boxBlurImage_const k W H pw c hw hh hk0 hc hkc
  have hg := gaussPass2_const ws (constImg W H pw c) c hsum (fun _ _ _ => rfl)
  refine ⟨?_, ?_, ?_, ?_⟩
  · intro x y ch hx hy
    simp only [boxBlurPerform, hfire1, eq_self_iff_true, if_true]
    exact hbox x y ch hx hy
  · simp only [gaussPerform, hfire2, eq_self_iff_true, if_true]
    exact hg.1
  · simp only [gaussPerform, hfire2, eq_self_iff_true, if_true]
    exact hg.2.1
  · intro x y ch
    simp only [gaussPerform, hfire2, eq_self_iff_true, if_true]
    exact hg.2.2 x y ch

/-- Witness for the amended C5 theorem: kernel length 3 and kernel `[1]`
on a constant 2x2 image of value 100. -/
theorem c5_witness :
    ((boxBlurPerform 3 ⟨1, fun _ => 0, 0⟩ (constImg 2 2 1 100)).1).pix 0 0 0 = 100 ∧
    ((gaussPerform [1] ⟨1, fun _ => 0, 0⟩ (constImg 2 2 1 100)).1).pix 0 0 0 = 100 := by
  have h := c5_flat_field 2 2 1 100 3 [1] ⟨1, fun _ => 0, 0⟩ ⟨1, fun _ => 0, 0⟩
    (by norm_num) (by norm_num) (by norm_num) (by norm_num) (by decide) (by simp) rfl rfl
  exact ⟨h.1 0 0 0 (by norm_num) (by norm_num), h.2.2.2 0 0 0⟩

/-- Identity behaviour of the rotate body at a drawn degree of 0: since
`cos 0 = 1` and `sin 0 = 0`, the inverse-mapped, rounded source
coordinate of every in-bounds destination pixel is that pixel itself, so
it always lies in bounds and the source pixel is copied. -/
lemma rotateBody_zero (cosF sinF : ℚ → ℚ) (img : Image)
    (hcos : cosF 0 = 1) (hsin : sinF 0 = 0) :
    ∀ x y c, x < img.width → y < img.height →
      (rotateBody cosF sinF 0 img).pix x y c = img.pix x y c := by
  intro x y c hx hy
  unfold rotateBody
  have hangle : (0 : ℚ) * piRat / 180 = 0 := by norm_num
  simp only [hangle, hcos, hsin]
  rw [if_pos ⟨hx, hy⟩]
  have hxs : round ((1 : ℚ) * (((x : Int) - (img.width : Int) / 2 : Int) : ℚ) -
      0 * (((y : Int) - (img.height : Int) / 2 : Int) : ℚ) +
      (((img.width : Int) / 2 : Int) : ℚ)) = (x : Int) := by
    rw [one_mul, zero_mul, sub_zero]
    have hcast : ((((x : Int) - (img.width : Int) / 2 : Int) : ℚ) +
        (((img.width : Int) / 2 : Int) : ℚ)) = (((x : Int) : ℚ)) := by
      push_cast
      ring
    rw [hcast, round_intCast]
  have hys : round ((0 : ℚ) * (((x : Int) - (img.width : Int) / 2 : Int) : ℚ) +
      1 * (((y : Int) - (img.height : Int) / 2 : Int) : ℚ) +
      (((img.height : Int) / 2 : Int) : ℚ)) = (y : Int) := by
    rw [one_mul, zero_mul, zero_add]
    have hcast : ((((y : Int) - (img.height : Int) / 2 : Int) : ℚ) +
        (((img.height : Int) / 2 : Int) : ℚ)) = (((y : Int) : ℚ)) := by
      push_cast
      ring
    rw [hcast, round_intCast]
  rw [hxs, hys]
  rw [if_pos ⟨Int.natCast_nonneg x, by exact_mod_cast hx, Int.natCast_nonneg y,
    by exact_mod_cast hy⟩]
  rw [Int.toNat_natCast, Int.toNat_natCast]

/-- Claim C6: Rotate with min and max rotation both 0 (so the drawn angle
is exactly 0 degrees) and the gate firing reproduces the source image at
every destination pixel: at angle 0 every inverse-mapped, rounded source
coordinate is the destination itself, hence in bounds, and the
out-of-bounds default case never triggers. -/
theorem c6_rotate_zero_identity (cosF sinF : ℚ → ℚ) (s : OpState) (img : Image)
    (hcos : cosF 0 = 1) (hsin : sinF 0 = 0)
    (hfire : (operateThisTime s).1 = true) :
    ∀ x y c, x < img.width → y < img.height →
      ((rotatePerform ⟨0, 0⟩ cosF sinF s img).1).pix x y c = img.pix x y c := by
  intro x y c hx hy
  simp only [rotatePerform, hfire, eq_self_iff_true, if_true, Int.cast_zero]
  have hdeg : (uniformRandomNumberIn (operateThisTime s).2 (0 : ℚ) (0 : ℚ)).1 = 0 := by
    simp [uniformRandomNumberIn]
  rw [hdeg]
  exact rotateBody_zero cosF sinF img hcos hsin x y c hx hy

/-- Witness for the C6 theorem on a concrete image. -/
theorem c6_witness :
    ((rotatePerform ⟨0, 0⟩ (fun _ => 1) (fun _ => 0) ⟨1, fun _ => 0, 0⟩
        (constImg 2 2 1 9)).1).pix 1 1 0 = (constImg 2 2 1 9).pix 1 1 0 :=
  c6_rotate_zero_identity (fun _ => 1) (fun _ => 0) ⟨1, fun _ => 0, 0⟩ (constImg 2 2 1 9)
    rfl rfl rfl 1 1 0 (by decide) (by decide)

/-- Claim C7: when the gate fires, RandomErase overwrites exactly the
pixels of one contiguous rectangle - whose height and width are
interpolated from the clamped lower/upper mask sizes by the single shared
unit draw, and which fits fully inside the image - with freshly drawn
per-channel noise, and leaves every pixel outside that rectangle
unchanged. -/
theorem c7_erase_exact_rectangle (lower upper : ImageSize) (op : EraseOp) (img : Image)
    (hlh : lower.height ≤ upper.height) (hlw : lower.width ≤ upper.width)
    (hh : 0 < img.height) (hw : 0 < img.width)
    (hf0 : 0 ≤ op.base.draws (op.base.idx + 1))
    (hf1 : op.base.draws (op.base.idx + 1) < 1)
    (hfire : (operateThisTime op.base).1 = true) :
    let f := op.base.draws (op.base.idx + 1)
    let eh := (eraseSizes lower upper img f).1
    let ew := (eraseSizes lower upper img f).2
    let top := (eraseOffsets img eh ew op.xy op.xyIdx).1
    let left := (eraseOffsets img eh ew op.xy op.xyIdx).2
    let E := (erasePerform lower upper op img).1
    (left + ew ≤ img.width ∧ top + eh ≤ img.height) ∧
    (E.width = img.width ∧ E.height = img.height) ∧
    (∀ x y c, ¬(left ≤ x ∧ x < left + ew ∧ top ≤ y ∧ y < top + eh) →
        E.pix x y c = img.pix x y c) ∧
    (∀ x y c, left ≤ x → x < left + ew → top ≤ y → y < top + eh →
        E.pix x y c =
          op.noise (op.noiseIdx + ((x - left) * eh + (y - top)) * img.pixelWidth + c)) := by
  intro f eh ew top left E
  have hsz := eraseSizes_le lower upper img f hlh hlw hf1
  have hoff := eraseOffsets_le img eh ew hsz.1 hsz.2 op.xy op.xyIdx
  have hE : E = (eraseLoop img left top ew eh img.pixelWidth op.noise op.noiseIdx).1 := by
    show (erasePerform lower upper op img).1 = _
    simp only [erasePerform, hfire, eq_self_iff_true, if_true]
    rfl
  obtain ⟨hn, hwid, hhei, hpix⟩ :=
    eraseLoop_spec left top img.pixelWidth op.noise eh ew img op.noiseIdx
  refine ⟨⟨hoff.2, hoff.1⟩, ⟨by rw [hE]; exact hwid, by rw [hE]; exact hhei⟩, ?_, ?_⟩
  · intro x y c hnot
    rw [hE, hpix x y c, if_neg]
    intro hcon
    exact hnot ⟨hcon.1.1, hcon.1.2, hcon.2.1, hcon.2.2⟩
  · intro x y c hx1 hx2 hy1 hy2
    rw [hE, hpix x y c, if_pos ⟨⟨hx1, hx2⟩, hy1, hy2⟩]

/-- Witness for the C7 theorem: a 1x1 erase rectangle at the origin of a
3x3 constant image leaves the outside pixel (2,2) unchanged. -/
theorem c7_witness :
    ((erasePerform ⟨1, 1⟩ ⟨1, 1⟩
        ⟨⟨1, fun _ => 0, 0⟩, fun _ => 0, 0, fun _ => 7, 0⟩ (constImg 3 3 1 9)).1).pix 2 2 0 =
      9 := by
  have h := c7_erase_exact_rectangle ⟨1, 1⟩ ⟨1, 1⟩
    ⟨⟨1, fun _ => 0, 0⟩, fun _ => 0, 0, fun _ => 7, 0⟩ (constImg 3 3 1 9)
    (by norm_num) (by norm_num) (by decide) (by decide) (by decide) (by decide) rfl
  refine h.2.2.1 2 2 0 ?_
  norm_num [eraseOffsets, eraseSizes, constImg, uniformRandomNumber, operateThisTime,
    OpState.next]

end AugmentorLib
